import Mathlib

/-
Shallow embedding of the JSR package-publishing pipeline
(`cli/tools/registry/mod.rs`): data model, manifest verification,
authorization flows, the upload state machine and provenance gating.
Network responses, environment variables and filesystem contents are
inputs of the embedded functions; terminal colouring is modelled as the
identity on the wrapped text.
-/

set_option autoImplicit false

namespace Registry

/-- One file inside a publishable tarball (`tar::PublishableTarballFile`). -/
structure PublishableTarballFile where
  specifier : String
  path_str : String
  hash : String
  size : Nat
deriving DecidableEq

/-- A gzipped tarball artifact (`tar::PublishableTarball`). -/
structure PublishableTarball where
  bytes : List Nat
  hash : String
  files : List PublishableTarballFile
deriving DecidableEq

/-- A prepared package (`PreparedPublishPackage`).  The `exports` hash map is
modelled as an association list. -/
structure PreparedPublishPackage where
  scope : String
  package : String
  version : String
  tarball : PublishableTarball
  config : String
  exports : List (String × String)
deriving DecidableEq

/-- One entry of the server version manifest (`ManifestEntry`). -/
structure ManifestEntry where
  checksum : String
deriving DecidableEq

/-- The server version manifest (`VersionManifest`); both hash maps are
modelled as association lists in iteration order. -/
structure VersionManifest where
  manifest : List (String × ManifestEntry)
  exports : List (String × String)
deriving DecidableEq

/-- Association-list lookup, mirroring `HashMap::get`. -/
def lookupA {α : Type} : List (String × α) → String → Option α
  | [], _ => none
  | e :: rest, k => if e.1 = k then some e.2 else lookupA rest k

/-- Find the tarball file with the given archive-relative path
(`package.tarball.files.iter().find(|f| f.path_str == path)`). -/
def findTarballFile (package : PreparedPublishPackage) (path : String) :
    Option PublishableTarballFile :=
  package.tarball.files.find? (fun f => f.path_str == path)

/-- The per-file loop of `verify_version_manifest`: each manifest entry must
name a tarball file and match its checksum. -/
def checkFiles : List (String × ManifestEntry) → PreparedPublishPackage →
    Except String Unit
  | [], _ => .ok ()
  | (path, entry) :: rest, package =>
    match findTarballFile package path with
    | some file =>
      if file.hash ≠ entry.checksum then
        .error ("Checksum mismatch for " ++ path ++ ": expected " ++
          entry.checksum ++ ", got " ++ file.hash)
      else
        checkFiles rest package
    | none => .error ("File " ++ path ++ " not found in the tarball")

/-- The per-export loop of `verify_version_manifest`: each manifest export
must be present in the package exports with the same target. -/
def checkExports : List (String × String) → PreparedPublishPackage →
    Except String Unit
  | [], _ => .ok ()
  | (specifier, expected) :: rest, package =>
    match lookupA package.exports specifier with
    | none => .error ("Export " ++ specifier ++ " not found in the package")
    | some actual =>
      if actual ≠ expected then
        .error ("Export " ++ specifier ++ " mismatch: expected " ++ expected ++
          ", got " ++ actual)
      else
        checkExports rest package

/-- Embedding of `verify_version_manifest`.  The `serde_json::from_slice`
decode of the raw `meta_bytes` is external; its result is the first input. -/
def verify_version_manifest (meta : Except String VersionManifest)
    (package : PreparedPublishPackage) : Except String Unit :=
  match meta with
  | .error e => .error e
  | .ok manifest =>
    if manifest.manifest.length ≠ package.tarball.files.length then
      .error ("Mismatch in the number of files in the manifest: expected " ++
        toString package.tarball.files.length ++ ", got " ++
        toString manifest.manifest.length)
    else
      match checkFiles manifest.manifest package with
      | .error e => .error e
      | .ok _ => checkExports manifest.exports package

/-- A manifest entry is bad when it names no tarball file or mismatches the
file checksum. -/
def badFileEntry (package : PreparedPublishPackage)
    (p : String × ManifestEntry) : Prop :=
  findTarballFile package p.1 = none ∨
    ∃ f, findTarballFile package p.1 = some f ∧ f.hash ≠ p.2.checksum

/-- A manifest export is bad when it is absent from the package exports or
maps to a different target path. -/
def badExportEntry (package : PreparedPublishPackage)
    (p : String × String) : Prop :=
  lookupA package.exports p.1 = none ∨
    ∃ a, lookupA package.exports p.1 = some a ∧ a ≠ p.2

theorem checkFiles_error_iff (l : List (String × ManifestEntry))
    (package : PreparedPublishPackage) :
    (∃ msg, checkFiles l package = .error msg) ↔
      ∃ p ∈ l, badFileEntry package p := by
  induction l with
  | nil => simp [checkFiles]
  | cons hd tl ih =>
    obtain ⟨path, entry⟩ := hd
    simp only [checkFiles]
    rcases hfind : findTarballFile package path with _ | f
    · constructor
      · intro _
        exact ⟨(path, entry), by simp, Or.inl hfind⟩
      · intro _
        exact ⟨_, rfl⟩
    · by_cases hh : f.hash ≠ entry.checksum
      · simp only [if_pos hh]
        constructor
        · intro _
          exact ⟨(path, entry), by simp, Or.inr ⟨f, hfind, hh⟩⟩
        · intro _
          exact ⟨_, rfl⟩
      · simp only [if_neg hh]
        rw [ih]
        constructor
        · rintro ⟨p, hp, hbad⟩
          exact ⟨p, by simp [hp], hbad⟩
        · rintro ⟨p, hp, hbad⟩
          rcases List.mem_cons.mp hp with heq | hmem
          · exfalso
            subst heq
            rcases hbad with h1 | ⟨f2, hf2, hne⟩
            · rw [hfind] at h1; exact Option.noConfusion h1
            · rw [hfind] at hf2
              exact hh (by cases hf2; exact hne)
          · exact ⟨p, hmem, hbad⟩

theorem checkExports_error_iff (l : List (String × String))
    (package : PreparedPublishPackage) :
    (∃ msg, checkExports l package = .error msg) ↔
      ∃ p ∈ l, badExportEntry package p := by
  induction l with
  | nil => simp [checkExports]
  | cons hd tl ih =>
    obtain ⟨specifier, expected⟩ := hd
    simp only [checkExports]
    rcases hfind : lookupA package.exports specifier with _ | a
    · constructor
      · intro _
        exact ⟨(specifier, expected), by simp, Or.inl hfind⟩
      · intro _
        exact ⟨_, rfl⟩
    · by_cases hh : a ≠ expected
      · simp only [if_pos hh]
        constructor
        · intro _
          exact ⟨(specifier, expected), by simp, Or.inr ⟨a, hfind, hh⟩⟩
        · intro _
          exact ⟨_, rfl⟩
      · simp only [if_neg hh]
        rw [ih]
        constructor
        · rintro ⟨p, hp, hbad⟩
          exact ⟨p, by simp [hp], hbad⟩
        · rintro ⟨p, hp, hbad⟩
          rcases List.mem_cons.mp hp with heq | hmem
          · exfalso
            subst heq
            rcases hbad with h1 | ⟨a2, ha2, hne⟩
            · rw [hfind] at h1; exact Option.noConfusion h1
            · rw [hfind] at ha2
              exact hh (by cases ha2; exact hne)
          · exact ⟨p, hmem, hbad⟩

/-- The concrete manifest of the spec scenario: entry `mod.ts` with checksum
`lol123`. -/
def mismatchMeta : VersionManifest :=
  { manifest := [("mod.ts", { checksum := "lol123" })], exports := [] }

/-- The concrete package of the spec scenario: one tarball file `mod.ts` with
sha256 `abc123`. -/
def mismatchPackage : PreparedPublishPackage :=
  { scope := "test"
    package := "test"
    version := "1.0.0"
    tarball :=
      { bytes := []
        hash := "abc123"
        files := [{ specifier := "file://mod.ts", path_str := "mod.ts",
                    hash := "abc123", size := 0 }] }
    config := "deno.json"
    exports := [] }

/-- Claim C2: `verify_version_manifest` errors exactly when the manifest file
count differs from the tarball file count, or some manifest entry names a path
absent from the tarball, or some matched entry's checksum differs from the
tarball file's hash, or some manifest export is absent from the package
exports or maps to a different target; and in the checksum-mismatch scenario
of the spec the error message is exactly
`Checksum mismatch for mod.ts: expected lol123, got abc123`. -/
theorem claim_C2_verify_version_manifest :
    (∀ (m : VersionManifest) (package : PreparedPublishPackage),
      (∃ msg, verify_version_manifest (.ok m) package = .error msg) ↔
        (m.manifest.length ≠ package.tarball.files.length ∨
          (∃ p ∈ m.manifest, badFileEntry package p) ∨
          (∃ p ∈ m.exports, badExportEntry package p))) ∧
    verify_version_manifest (.ok mismatchMeta) mismatchPackage =
      .error "Checksum mismatch for mod.ts: expected lol123, got abc123" := by
  constructor
  · intro m package
    by_cases hlen : m.manifest.length = package.tarball.files.length
    · rcases hcf : checkFiles m.manifest package with e | u
      · constructor
        · intro _
          exact Or.inr (Or.inl ((checkFiles_error_iff _ _).mp ⟨e, hcf⟩))
        · intro _
          exact ⟨e, by simp [verify_version_manifest, hlen, hcf]⟩
      · have hverify : verify_version_manifest (.ok m) package =
            checkExports m.exports package := by
          simp [verify_version_manifest, hlen, hcf]
        rw [hverify]
        rw [checkExports_error_iff]
        constructor
        · intro h
          exact Or.inr (Or.inr h)
        · rintro (h | h | h)
          · exact absurd hlen h
          · exfalso
            obtain ⟨e, he⟩ := (checkFiles_error_iff _ _).mpr h
            rw [hcf] at he
            exact Except.noConfusion he
          · exact h
    · constructor
      · intro _
        exact Or.inl hlen
      · intro _
        refine ⟨"Mismatch in the number of files in the manifest: expected " ++
          toString package.tarball.files.length ++ ", got " ++
          toString m.manifest.length, ?_⟩
        simp only [verify_version_manifest]
        rw [if_pos hlen]
  · rfl

/-- Claim C9: `verify_version_manifest` only checks manifest exports against
the package.  Whenever the file checks pass and every manifest export is
present in the package exports with an equal target, verification succeeds —
with no upper bound on the package's exports, so a package whose exports map
strictly contains the manifest's passes. -/
theorem claim_C9_extra_local_exports_undetected
    (m : VersionManifest) (package : PreparedPublishPackage)
    (hlen : m.manifest.length = package.tarball.files.length)
    (hfiles : ∀ p ∈ m.manifest, ¬ badFileEntry package p)
    (hexports : ∀ s t, (s, t) ∈ m.exports → lookupA package.exports s = some t) :
    verify_version_manifest (.ok m) package = .ok () := by
  have hcf : checkFiles m.manifest package = .ok () := by
    rcases hcf : checkFiles m.manifest package with e | u
    · obtain ⟨p, hp, hbad⟩ := (checkFiles_error_iff _ _).mp ⟨e, hcf⟩
      exact absurd hbad (hfiles p hp)
    · cases u
      rfl
  have hce : checkExports m.exports package = .ok () := by
    rcases hce : checkExports m.exports package with e | u
    · obtain ⟨p, hp, hbad⟩ := (checkExports_error_iff _ _).mp ⟨e, hce⟩
      rcases hbad with h1 | ⟨a, ha, hne⟩
      · rw [hexports p.1 p.2 (by simpa using hp)] at h1
        exact Option.noConfusion h1
      · rw [hexports p.1 p.2 (by simpa using hp)] at ha
        exact absurd (by cases ha; rfl) hne
    · cases u
      rfl
  simp [verify_version_manifest, hlen, hcf, hce]

/-- A concrete server manifest with a single export `.` → `./mod.ts`. -/
def supersetMeta : VersionManifest :=
  { manifest := [("mod.ts", { checksum := "abc123" })]
    exports := [(".", "./mod.ts")] }

/-- A concrete package whose exports map strictly contains
`supersetMeta.exports`: it also maps `./extra` locally. -/
def supersetPackage : PreparedPublishPackage :=
  { mismatchPackage with
    exports := [(".", "./mod.ts"), ("./extra", "./extra.ts")] }

/-- A manifest entry whose path resolves to a tarball file with the same
checksum is not bad. -/
theorem not_badFileEntry_of (package : PreparedPublishPackage)
    (p : String × ManifestEntry) (f : PublishableTarballFile)
    (hf : findTarballFile package p.1 = some f)
    (hh : f.hash = p.2.checksum) : ¬ badFileEntry package p := by
  rintro (h1 | ⟨g, hg, hne⟩)
  · rw [hf] at h1
    exact Option.noConfusion h1
  · rw [hf] at hg
    cases hg
    exact hne hh

/-- Witness for claim C9 at a concrete strict-superset package. -/
theorem claim_C9_witness :
    (supersetMeta.manifest.length = supersetPackage.tarball.files.length ∧
      (∀ p ∈ supersetMeta.manifest, ¬ badFileEntry supersetPackage p) ∧
      (∀ s t, (s, t) ∈ supersetMeta.exports →
        lookupA supersetPackage.exports s = some t) ∧
      supersetMeta.exports.length < supersetPackage.exports.length) ∧
    verify_version_manifest (.ok supersetMeta) supersetPackage = .ok () := by
  have h1 : supersetMeta.manifest.length =
      supersetPackage.tarball.files.length := rfl
  have h2 : ∀ p ∈ supersetMeta.manifest, ¬ badFileEntry supersetPackage p := by
    intro p hp
    have hp2 : p = ("mod.ts", ({ checksum := "abc123" } : ManifestEntry)) := by
      simpa [supersetMeta] using hp
    subst hp2
    exact not_badFileEntry_of _ _ _ rfl rfl
  have h3 : ∀ s t, (s, t) ∈ supersetMeta.exports →
      lookupA supersetPackage.exports s = some t := by
    intro s t hst
    have hst2 : s = "." ∧ t = "./mod.ts" := by
      simpa [supersetMeta] using hst
    obtain ⟨hs, ht⟩ := hst2
    subst hs
    subst ht
    rfl
  exact ⟨⟨h1, h2, h3, by decide⟩,
    claim_C9_extra_local_exports_undetected supersetMeta supersetPackage
      h1 h2 h3⟩

/-- A publishing task error (`api::PublishingTaskError`). -/
structure PublishingTaskError where
  code : String
  message : String
deriving DecidableEq

/-- A publishing task (`api::PublishingTask`). -/
structure PublishingTask where
  id : String
  status : String
  error : Option PublishingTaskError
deriving DecidableEq

/-- A structured server error (`api::ApiError`); `dataTask` models the
`error.data.task` field used by the duplicate-version path. -/
structure ApiError where
  code : String
  message : String
  dataTask : Option PublishingTask
deriving DecidableEq

/-- External inputs of one `publish_package` run: the parsed response of the
upload POST, the successive parsed responses of the `publish_status` polls,
the environment flags read by the provenance step and the parsed body of the
version-manifest fetch. -/
structure PublishInput where
  initialResponse : Except ApiError PublishingTask
  pollResponses : List PublishingTask
  disableJsrProvenance : Bool
  isGha : Bool
  hasGhaOidcToken : Bool
  disableManifestVerification : Bool
  metaResponse : Except String VersionManifest

/-- Observable outcome of one `publish_package` run. -/
structure PublishOutcome where
  result : Except String Unit
  pollCount : Nat
  sleptSeconds : Nat
  skippedAlreadyPublished : Bool
  reachedSuccess : Bool
  provenanceRan : Bool
  manifestVerified : Bool

/-- The loop guard of the status-poll loop
(`task.status != "success" && task.status != "failure"`, negated). -/
def isTerminalStatus (s : String) : Bool :=
  s == "success" || s == "failure"

/-- The status-poll loop of `publish_package`: while the task is not
terminal, replace it with the next poll response; returns the terminal task
and the number of polls performed, or `none` when the modelled response
stream is exhausted while the task is still pending. -/
def pollLoop : PublishingTask → List PublishingTask →
    Option (PublishingTask × Nat)
  | t, [] => if isTerminalStatus t.status then some (t, 0) else none
  | t, r :: rest =>
    if isTerminalStatus t.status then some (t, 0)
    else
      match pollLoop r rest with
      | none => none
      | some (f, n) => some (f, n + 1)

/-- The provenance-enablement condition of `publish_package`
(`std::env::var("DISABLE_JSR_PROVENANCE").is_err() || (auth::is_gha() &&
auth::gha_oidc_token().is_some() && !no_provenance)`). -/
def enable_provenance (disableJsrProvenance isGha hasGhaOidcToken
    no_provenance : Bool) : Bool :=
  !disableJsrProvenance || (isGha && hasGhaOidcToken && !no_provenance)

/-- The per-package failure context of `publish_package`
(`Failed to publish @scope/package at version`, colon, inner message). -/
def publishFailMessage (package : PreparedPublishPackage)
    (msg : String) : String :=
  "Failed to publish @" ++ package.scope ++ "/" ++ package.package ++
    " at " ++ package.version ++ ": " ++ msg

/-- Everything `publish_package` does after it holds a task: the status-poll
loop, the `task.error` check, and the provenance block guarded by
`enable_provenance`.  The meta fetch, bundle generation and provenance POST
are external calls whose responses are inputs. -/
def afterUpload (package : PreparedPublishPackage) (no_provenance : Bool)
    (inp : PublishInput) (t : PublishingTask) : Option PublishOutcome :=
  match pollLoop t inp.pollResponses with
  | none => none
  | some (finalTask, n) =>
    match finalTask.error with
    | some e =>
      some { result := .error (publishFailMessage package e.message)
             pollCount := n, sleptSeconds := 2 * n
             skippedAlreadyPublished := false, reachedSuccess := false
             provenanceRan := false, manifestVerified := false }
    | none =>
      if enable_provenance inp.disableJsrProvenance inp.isGha
          inp.hasGhaOidcToken no_provenance then
        if inp.disableManifestVerification then
          some { result := .ok (), pollCount := n, sleptSeconds := 2 * n
                 skippedAlreadyPublished := false, reachedSuccess := true
                 provenanceRan := true, manifestVerified := false }
        else
          match verify_version_manifest inp.metaResponse package with
          | .error e =>
            some { result := .error e, pollCount := n, sleptSeconds := 2 * n
                   skippedAlreadyPublished := false, reachedSuccess := true
                   provenanceRan := true, manifestVerified := true }
          | .ok _ =>
            some { result := .ok (), pollCount := n, sleptSeconds := 2 * n
                   skippedAlreadyPublished := false, reachedSuccess := true
                   provenanceRan := true, manifestVerified := true }
      else
        some { result := .ok (), pollCount := n, sleptSeconds := 2 * n
               skippedAlreadyPublished := false, reachedSuccess := true
               provenanceRan := false, manifestVerified := false }

/-- Embedding of `publish_package`: handle the upload response (including the
`duplicateVersionPublish` shortcut), then poll and attach provenance.
`none` models a run the embedding cannot finish: the poll stream is
exhausted, or the `err.data.get_mut("task").unwrap()` panic. -/
def publish_package (package : PreparedPublishPackage)
    (no_provenance : Bool) (inp : PublishInput) : Option PublishOutcome :=
  match inp.initialResponse with
  | .ok t => afterUpload package no_provenance inp t
  | .error err =>
    if err.code == "duplicateVersionPublish" then
      match err.dataTask with
      | none => none
      | some t =>
        if t.status == "success" then
          some { result := .ok (), pollCount := 0, sleptSeconds := 0
                 skippedAlreadyPublished := true, reachedSuccess := false
                 provenanceRan := false, manifestVerified := false }
        else
          afterUpload package no_provenance inp t
    else
      some { result := .error (publishFailMessage package err.message)
             pollCount := 0, sleptSeconds := 0
             skippedAlreadyPublished := false, reachedSuccess := false
             provenanceRan := false, manifestVerified := false }

theorem pollLoop_some_iff (t : PublishingTask) (rs : List PublishingTask)
    (f : PublishingTask) (n : Nat) :
    pollLoop t rs = some (f, n) ↔
      ((t :: rs)[n]? = some f ∧ isTerminalStatus f.status = true ∧
        ∀ i, i < n → ∃ u, (t :: rs)[i]? = some u ∧
          isTerminalStatus u.status = false) := by
  induction rs generalizing t n with
  | nil =>
    by_cases ht : isTerminalStatus t.status
    · simp only [pollLoop, if_pos ht]
      constructor
      · intro h
        obtain ⟨h1, h2⟩ : t = f ∧ 0 = n := by simpa using h
        subst h1
        subst h2
        exact ⟨rfl, ht, fun i hi => absurd hi (Nat.not_lt_zero i)⟩
      · rintro ⟨h1, h2, h3⟩
        cases n with
        | zero =>
          simp only [List.getElem?_cons_zero, Option.some.injEq] at h1
          subst h1
          rfl
        | succ k =>
          obtain ⟨u, hu, hterm⟩ := h3 0 (Nat.succ_pos k)
          simp only [List.getElem?_cons_zero, Option.some.injEq] at hu
          subst hu
          rw [ht] at hterm
          exact Bool.noConfusion hterm
    · simp only [pollLoop, if_neg ht]
      constructor
      · intro h
        exact Option.noConfusion h
      · rintro ⟨h1, h2, h3⟩
        exfalso
        cases n with
        | zero =>
          simp only [List.getElem?_cons_zero, Option.some.injEq] at h1
          subst h1
          rw [h2] at ht
          exact ht rfl
        | succ k =>
          simp only [List.getElem?_cons_succ, List.getElem?_nil] at h1
          exact Option.noConfusion h1
  | cons r rest ih =>
    by_cases ht : isTerminalStatus t.status
    · simp only [pollLoop, if_pos ht]
      constructor
      · intro h
        obtain ⟨h1, h2⟩ : t = f ∧ 0 = n := by simpa using h
        subst h1
        subst h2
        exact ⟨rfl, ht, fun i hi => absurd hi (Nat.not_lt_zero i)⟩
      · rintro ⟨h1, h2, h3⟩
        cases n with
        | zero =>
          simp only [List.getElem?_cons_zero, Option.some.injEq] at h1
          subst h1
          rfl
        | succ k =>
          obtain ⟨u, hu, hterm⟩ := h3 0 (Nat.succ_pos k)
          simp only [List.getElem?_cons_zero, Option.some.injEq] at hu
          subst hu
          rw [ht] at hterm
          exact Bool.noConfusion hterm
    · constructor
      · intro h
        simp only [pollLoop, if_neg ht] at h
        rcases hrec : pollLoop r rest with _ | p
        · simp only [hrec] at h
          exact Option.noConfusion h
        · obtain ⟨g, m⟩ := p
          simp only [hrec] at h
          obtain ⟨h1, h2⟩ : g = f ∧ m + 1 = n := by simpa using h
          subst h1
          subst h2
          obtain ⟨hg1, hg2, hg3⟩ := (ih r m).mp hrec
          refine ⟨by simpa using hg1, hg2, ?_⟩
          intro i hi
          cases i with
          | zero => exact ⟨t, rfl, Bool.eq_false_iff.mpr ht⟩
          | succ j =>
            obtain ⟨u, hu, hterm⟩ := hg3 j (Nat.lt_of_succ_lt_succ hi)
            exact ⟨u, by simpa using hu, hterm⟩
      · rintro ⟨h1, h2, h3⟩
        cases n with
        | zero =>
          simp only [List.getElem?_cons_zero, Option.some.injEq] at h1
          subst h1
          rw [Bool.eq_false_iff.mpr ht] at h2
          exact Bool.noConfusion h2
        | succ k =>
          have hrec : pollLoop r rest = some (f, k) := by
            refine (ih r k).mpr ⟨by simpa using h1, h2, ?_⟩
            intro i hi
            obtain ⟨u, hu, hterm⟩ := h3 (i + 1) (Nat.succ_lt_succ hi)
            exact ⟨u, by simpa using hu, hterm⟩
          simp only [pollLoop, if_neg ht, hrec]

/-- Claim C6: the status polling loop of `publish_package` repeats exactly
while the task status is neither `success` nor `failure` (each iteration
sleeping 2 seconds and replacing the task with the next `publish_status`
response), and once a terminal task is reached the upload stage fails if and
only if `task.error` is set, with a failure message ending in the task
error's message. -/
theorem claim_C6_status_polling
    (package : PreparedPublishPackage) (no_provenance : Bool)
    (inp : PublishInput) (t : PublishingTask) (out : PublishOutcome)
    (h : afterUpload package no_provenance inp t = some out) :
    ∃ f, pollLoop t inp.pollResponses = some (f, out.pollCount) ∧
      ((t :: inp.pollResponses)[out.pollCount]? = some f ∧
        isTerminalStatus f.status = true ∧
        ∀ i, i < out.pollCount → ∃ u, (t :: inp.pollResponses)[i]? = some u ∧
          isTerminalStatus u.status = false) ∧
      out.sleptSeconds = 2 * out.pollCount ∧
      (out.reachedSuccess = false ↔ ∃ e, f.error = some e) ∧
      (∀ e, f.error = some e →
        out.result = .error ("Failed to publish @" ++ package.scope ++ "/" ++
          package.package ++ " at " ++ package.version ++ ": " ++
          e.message)) := by
  rcases hpoll : pollLoop t inp.pollResponses with _ | p
  · simp only [afterUpload, hpoll] at h
    exact Option.noConfusion h
  · obtain ⟨f, n⟩ := p
    simp only [afterUpload, hpoll] at h
    refine ⟨f, ?_⟩
    rcases herr : f.error with _ | e
    · simp only [herr] at h
      by_cases hen : enable_provenance inp.disableJsrProvenance inp.isGha
          inp.hasGhaOidcToken no_provenance = true
      · simp only [if_pos hen] at h
        by_cases hdm : inp.disableManifestVerification = true
        · simp only [if_pos hdm] at h
          obtain rfl : _ = out := by simpa using h
          exact ⟨rfl, (pollLoop_some_iff t inp.pollResponses f n).mp hpoll,
            rfl, by simp [herr], fun e he => by simp at he⟩
        · simp only [if_neg hdm] at h
          rcases hv : verify_version_manifest inp.metaResponse package
            with e2 | u
          · simp only [hv] at h
            obtain rfl : _ = out := by simpa using h
            exact ⟨rfl, (pollLoop_some_iff t inp.pollResponses f n).mp hpoll,
              rfl, by simp [herr], fun e he => by simp at he⟩
          · simp only [hv] at h
            obtain rfl : _ = out := by simpa using h
            exact ⟨rfl, (pollLoop_some_iff t inp.pollResponses f n).mp hpoll,
              rfl, by simp [herr], fun e he => by simp at he⟩
      · simp only [if_neg hen] at h
        obtain rfl : _ = out := by simpa using h
        exact ⟨rfl, (pollLoop_some_iff t inp.pollResponses f n).mp hpoll,
          rfl, by simp [herr], fun e he => by simp at he⟩
    · simp only [herr] at h
      obtain rfl : _ = out := by simpa using h
      refine ⟨rfl, (pollLoop_some_iff t inp.pollResponses f n).mp hpoll,
        rfl, by simp [herr], ?_⟩
      intro e2 he2
      obtain rfl : e = e2 := by simpa using he2
      rfl

/-- A pending task followed by a failing poll response, driving one loop
iteration. -/
def sampleTaskPending : PublishingTask :=
  { id := "t1", status := "processing", error := none }

/-- A terminal failed task carrying a task error. -/
def sampleTaskFailed : PublishingTask :=
  { id := "t1", status := "failure"
    error := some { code := "publishFailed", message := "boom" } }

/-- Concrete inputs for one `publish_package` run that polls once and ends in
failure. -/
def samplePublishInput : PublishInput :=
  { initialResponse := .ok sampleTaskPending
    pollResponses := [sampleTaskFailed]
    disableJsrProvenance := false
    isGha := false
    hasGhaOidcToken := false
    disableManifestVerification := false
    metaResponse := .ok { manifest := [], exports := [] } }

/-- The outcome of `samplePublishInput`: one poll, task error surfaced. -/
def sampleFailOutcome : PublishOutcome :=
  { result := .error (publishFailMessage mismatchPackage "boom")
    pollCount := 1, sleptSeconds := 2
    skippedAlreadyPublished := false, reachedSuccess := false
    provenanceRan := false, manifestVerified := false }

/-- Witness for claim C6 on a concrete run: one non-terminal task, one poll
reaching `failure`, upload stage fails with the task error's message. -/
theorem claim_C6_witness :
    afterUpload mismatchPackage false samplePublishInput sampleTaskPending =
        some sampleFailOutcome ∧
    ∃ f, pollLoop sampleTaskPending samplePublishInput.pollResponses =
        some (f, sampleFailOutcome.pollCount) ∧
      ((sampleTaskPending ::
          samplePublishInput.pollResponses)[sampleFailOutcome.pollCount]? =
            some f ∧
        isTerminalStatus f.status = true ∧
        ∀ i, i < sampleFailOutcome.pollCount →
          ∃ u, (sampleTaskPending ::
            samplePublishInput.pollResponses)[i]? = some u ∧
            isTerminalStatus u.status = false) ∧
      sampleFailOutcome.sleptSeconds = 2 * sampleFailOutcome.pollCount ∧
      (sampleFailOutcome.reachedSuccess = false ↔ ∃ e, f.error = some e) ∧
      (∀ e, f.error = some e →
        sampleFailOutcome.result = .error ("Failed to publish @" ++
          mismatchPackage.scope ++ "/" ++ mismatchPackage.package ++ " at " ++
          mismatchPackage.version ++ ": " ++ e.message)) :=
  ⟨rfl, claim_C6_status_polling mismatchPackage false samplePublishInput
    sampleTaskPending sampleFailOutcome rfl⟩

/-- Claim C3: on a `duplicateVersionPublish` upload error the task embedded
in `error.data.task` decides everything: if its status is `success` the
publish returns success immediately with no polling, manifest verification
or provenance; otherwise it is adopted and the run continues exactly as if
the upload had returned that task. -/
theorem claim_C3_duplicate_version_publish
    (package : PreparedPublishPackage) (no_provenance : Bool)
    (inp : PublishInput) (e : ApiError) (t : PublishingTask)
    (hinit : inp.initialResponse = .error e)
    (hcode : e.code = "duplicateVersionPublish")
    (hdata : e.dataTask = some t) :
    (t.status = "success" →
      publish_package package no_provenance inp =
        some { result := .ok (), pollCount := 0, sleptSeconds := 0
               skippedAlreadyPublished := true, reachedSuccess := false
               provenanceRan := false, manifestVerified := false }) ∧
    (t.status ≠ "success" →
      publish_package package no_provenance inp =
        afterUpload package no_provenance inp t) := by
  constructor
  · intro hst
    simp [publish_package, hinit, hcode, hdata, hst]
  · intro hst
    simp [publish_package, hinit, hcode, hdata, hst]

/-- The embedded task of the duplicate-version scenario, already successful. -/
def dupSuccessTask : PublishingTask :=
  { id := "t2", status := "success", error := none }

/-- A `duplicateVersionPublish` server error embedding `dupSuccessTask`. -/
def dupError : ApiError :=
  { code := "duplicateVersionPublish", message := "already uploaded"
    dataTask := some dupSuccessTask }

/-- `samplePublishInput` with the upload POST answered by `dupError`. -/
def dupInput : PublishInput :=
  { samplePublishInput with initialResponse := .error dupError }

/-- Witness for claim C3: a duplicate-version error with an embedded
successful task short-circuits to success. -/
theorem claim_C3_witness :
    (dupInput.initialResponse = .error dupError ∧
      dupError.code = "duplicateVersionPublish" ∧
      dupError.dataTask = some dupSuccessTask ∧
      dupSuccessTask.status = "success") ∧
    publish_package mismatchPackage false dupInput =
      some { result := .ok (), pollCount := 0, sleptSeconds := 0
             skippedAlreadyPublished := true, reachedSuccess := false
             provenanceRan := false, manifestVerified := false } :=
  ⟨⟨rfl, rfl, rfl, rfl⟩,
    (claim_C3_duplicate_version_publish mismatchPackage false dupInput
      dupError dupSuccessTask rfl rfl rfl).1 rfl⟩

theorem afterUpload_provenanceRan (package : PreparedPublishPackage)
    (no_provenance : Bool) (inp : PublishInput) (t : PublishingTask)
    (out : PublishOutcome)
    (h : afterUpload package no_provenance inp t = some out) :
    out.provenanceRan = (out.reachedSuccess &&
      enable_provenance inp.disableJsrProvenance inp.isGha
        inp.hasGhaOidcToken no_provenance) := by
  rcases hpoll : pollLoop t inp.pollResponses with _ | p
  · simp only [afterUpload, hpoll] at h
    exact Option.noConfusion h
  · obtain ⟨f, n⟩ := p
    simp only [afterUpload, hpoll] at h
    rcases herr : f.error with _ | e
    · simp only [herr] at h
      by_cases hen : enable_provenance inp.disableJsrProvenance inp.isGha
          inp.hasGhaOidcToken no_provenance = true
      · simp only [if_pos hen] at h
        by_cases hdm : inp.disableManifestVerification = true
        · simp only [if_pos hdm] at h
          obtain rfl : _ = out := by simpa using h
          simp [hen]
        · simp only [if_neg hdm] at h
          rcases hv : verify_version_manifest inp.metaResponse package
            with e2 | u
          · simp only [hv] at h
            obtain rfl : _ = out := by simpa using h
            simp [hen]
          · simp only [hv] at h
            obtain rfl : _ = out := by simpa using h
            simp [hen]
      · simp only [if_neg hen] at h
        obtain rfl : _ = out := by simpa using h
        simp [Bool.eq_false_iff.mpr hen]
    · simp only [herr] at h
      obtain rfl : _ = out := by simpa using h
      simp

/-- Claim C1: the provenance block of `publish_package` runs exactly when the
run reaches the post-poll success point and provenance is enabled, where
enabled is `DISABLE_JSR_PROVENANCE` unset, or (GitHub Actions with an OIDC
token and `--no-provenance` not passed); in particular setting
`DISABLE_JSR_PROVENANCE` outside that CI condition disables provenance. -/
theorem claim_C1_provenance_gating (package : PreparedPublishPackage)
    (no_provenance : Bool) (inp : PublishInput) (out : PublishOutcome)
    (h : publish_package package no_provenance inp = some out) :
    out.provenanceRan = (out.reachedSuccess &&
        enable_provenance inp.disableJsrProvenance inp.isGha
          inp.hasGhaOidcToken no_provenance) ∧
    enable_provenance inp.disableJsrProvenance inp.isGha inp.hasGhaOidcToken
        no_provenance =
      ((!inp.disableJsrProvenance) ||
        (inp.isGha && inp.hasGhaOidcToken && !no_provenance)) ∧
    (inp.disableJsrProvenance = true →
      (inp.isGha && inp.hasGhaOidcToken && !no_provenance) = false →
      out.provenanceRan = false) := by
  rcases hinit : inp.initialResponse with err | t
  · simp only [publish_package, hinit] at h
    by_cases hcode : (err.code == "duplicateVersionPublish") = true
    · simp only [if_pos hcode] at h
      rcases hdata : err.dataTask with _ | t2
      · simp only [hdata] at h
        exact Option.noConfusion h
      · simp only [hdata] at h
        by_cases hst : (t2.status == "success") = true
        · simp only [if_pos hst] at h
          obtain rfl : _ = out := by simpa using h
          exact ⟨by simp, rfl, fun h1 h2 => rfl⟩
        · simp only [if_neg hst] at h
          have hp := afterUpload_provenanceRan package no_provenance inp t2
            out h
          refine ⟨hp, rfl, fun h1 h2 => ?_⟩
          rw [hp]
          simp [enable_provenance, h1, h2]
    · simp only [if_neg hcode] at h
      obtain rfl : _ = out := by simpa using h
      exact ⟨by simp, rfl, fun h1 h2 => rfl⟩
  · simp only [publish_package, hinit] at h
    have hp := afterUpload_provenanceRan package no_provenance inp t out h
    refine ⟨hp, rfl, fun h1 h2 => ?_⟩
    rw [hp]
    simp [enable_provenance, h1, h2]

/-- An upload POST answered directly with a successful terminal task. -/
def successTask : PublishingTask :=
  { id := "t3", status := "success", error := none }

/-- Inputs whose run reaches the success point with provenance enabled (the
opt-out unset) but whose manifest verification then fails on a file-count
mismatch. -/
def provInput : PublishInput :=
  { initialResponse := .ok successTask
    pollResponses := []
    disableJsrProvenance := false
    isGha := false
    hasGhaOidcToken := false
    disableManifestVerification := false
    metaResponse := .ok { manifest := [], exports := [] } }

/-- The outcome of `provInput`: the provenance block ran and its manifest
verification rejected the empty server manifest. -/
def provOutcome : PublishOutcome :=
  { result := .error ("Mismatch in the number of files in the manifest: " ++
      "expected 1, got 0")
    pollCount := 0, sleptSeconds := 0
    skippedAlreadyPublished := false, reachedSuccess := true
    provenanceRan := true, manifestVerified := true }

/-- Witness for claim C1: with `DISABLE_JSR_PROVENANCE` unset and not on CI,
a successful run enters the provenance block. -/
theorem claim_C1_witness :
    publish_package mismatchPackage false provInput = some provOutcome ∧
    provOutcome.provenanceRan = (provOutcome.reachedSuccess &&
      enable_provenance provInput.disableJsrProvenance provInput.isGha
        provInput.hasGhaOidcToken false) :=
  ⟨rfl, (claim_C1_provenance_gating mismatchPackage false provInput
    provOutcome rfl).1⟩

/-- The key type of the authorizations hash map: `(scope, name, version)`. -/
abbrev AuthKey := String × String × String

/-- The authorizations key of a package. -/
def pkgKey (p : PreparedPublishPackage) : AuthKey :=
  (p.scope, p.package, p.version)

/-- Lookup in the authorizations map (`HashMap::get`). -/
def lookupK {α : Type} : List (AuthKey × α) → AuthKey → Option α
  | [], _ => none
  | e :: rest, k => if e.1 = k then some e.2 else lookupK rest k

/-- Insert into the authorizations map (`HashMap::insert`): replace the
binding when the key is present, append otherwise. -/
def insertAuth : List (AuthKey × String) → AuthKey → String →
    List (AuthKey × String)
  | [], k, v => [(k, v)]
  | e :: rest, k, v =>
    if e.1 = k then (k, v) :: rest else e :: insertAuth rest k v

/-- The keys of an authorizations map. -/
def keysOf (m : List (AuthKey × String)) : List AuthKey :=
  m.map Prod.fst

theorem lookupK_insertAuth_self (m : List (AuthKey × String)) (k : AuthKey)
    (v : String) : lookupK (insertAuth m k v) k = some v := by
  induction m with
  | nil => simp [insertAuth, lookupK]
  | cons e rest ih =>
    by_cases he : e.1 = k
    · simp [insertAuth, he, lookupK]
    · simp [insertAuth, he, lookupK, ih]

theorem lookupK_insertAuth_ne (m : List (AuthKey × String)) (k k2 : AuthKey)
    (v : String) (hne : k2 ≠ k) :
    lookupK (insertAuth m k v) k2 = lookupK m k2 := by
  induction m with
  | nil => simp [insertAuth, lookupK, Ne.symm hne]
  | cons e rest ih =>
    by_cases he : e.1 = k
    · subst he
      simp [insertAuth, lookupK, Ne.symm hne]
    · by_cases he2 : e.1 = k2
      · simp [insertAuth, he, lookupK, he2, hne]
      · simp [insertAuth, he, lookupK, he2, ih]

theorem keysOf_cons (e : AuthKey × String) (rest : List (AuthKey × String)) :
    keysOf (e :: rest) = e.1 :: keysOf rest := rfl

theorem mem_keys_insertAuth (m : List (AuthKey × String)) (k : AuthKey)
    (v : String) (k2 : AuthKey) :
    k2 ∈ keysOf (insertAuth m k v) ↔ k2 = k ∨ k2 ∈ keysOf m := by
  induction m with
  | nil => simp [insertAuth, keysOf]
  | cons e rest ih =>
    by_cases he : e.1 = k
    · have hins : insertAuth (e :: rest) k v = (k, v) :: rest := by
        simp [insertAuth, he]
      rw [hins, keysOf_cons, keysOf_cons, List.mem_cons, List.mem_cons]
      constructor
      · rintro (h1 | h2)
        · exact Or.inl h1
        · exact Or.inr (Or.inr h2)
      · rintro (h1 | h2 | h3)
        · exact Or.inl h1
        · exact Or.inl (he ▸ h2)
        · exact Or.inr h3
    · have hins : insertAuth (e :: rest) k v = e :: insertAuth rest k v := by
        simp [insertAuth, he]
      rw [hins, keysOf_cons, List.mem_cons, ih, keysOf_cons, List.mem_cons]
      tauto

theorem length_insertAuth (m : List (AuthKey × String)) (k : AuthKey)
    (v : String) :
    (insertAuth m k v).length =
      if k ∈ keysOf m then m.length else m.length + 1 := by
  induction m with
  | nil => simp [insertAuth, keysOf]
  | cons e rest ih =>
    by_cases he : e.1 = k
    · subst he
      simp [insertAuth, keysOf]
    · have hmem : (k ∈ keysOf (e :: rest)) ↔ k ∈ keysOf rest := by
        simp only [keysOf, List.map_cons, List.mem_cons]
        constructor
        · rintro (h1 | h2)
          · exact absurd h1.symm he
          · exact h2
        · exact Or.inr
      by_cases hk : k ∈ keysOf rest
      · simp only [insertAuth, if_neg he, List.length_cons, ih, if_pos hk,
          if_pos (hmem.mpr hk)]
      · simp only [insertAuth, if_neg he, List.length_cons, ih, if_neg hk]
        rw [if_neg (fun h => hk (hmem.mp h))]

theorem nodup_keys_insertAuth (m : List (AuthKey × String)) (k : AuthKey)
    (v : String) (h : (keysOf m).Nodup) :
    (keysOf (insertAuth m k v)).Nodup := by
  induction m with
  | nil => simp [insertAuth, keysOf]
  | cons e rest ih =>
    rw [keysOf, List.map_cons, List.nodup_cons] at h
    obtain ⟨hnot, hrest⟩ := h
    by_cases he : e.1 = k
    · subst he
      simp only [insertAuth, if_pos rfl, keysOf, List.map_cons]
      exact List.nodup_cons.mpr ⟨hnot, hrest⟩
    · simp only [insertAuth, if_neg he, keysOf, List.map_cons]
      refine List.nodup_cons.mpr ⟨?_, ih hrest⟩
      intro hmem
      rcases (mem_keys_insertAuth rest k v e.1).mp hmem with h1 | h2
      · exact he h1
      · exact hnot h2

theorem lookupK_eq_none_iff (m : List (AuthKey × String)) (k : AuthKey) :
    lookupK m k = none ↔ k ∉ keysOf m := by
  induction m with
  | nil => simp [lookupK, keysOf]
  | cons e rest ih =>
    by_cases he : e.1 = k
    · simp [lookupK, he, keysOf]
    · simp only [lookupK, if_neg he, keysOf, List.map_cons, List.mem_cons]
      simp only [keysOf] at ih
      rw [ih]
      constructor
      · intro h
        rintro (h1 | h2)
        · exact he h1.symm
        · exact h h2
      · intro h h2
        exact h (Or.inr h2)

/-- Fold inserting the same authorization for every package (the
`for pkg in &packages { authorizations.insert(..) }` loops). -/
def insertAll (m : List (AuthKey × String))
    (packages : List PreparedPublishPackage) (auth : String) :
    List (AuthKey × String) :=
  packages.foldl (fun acc p => insertAuth acc (pkgKey p) auth) m

theorem insertAll_lookup_not_mem (ps : List PreparedPublishPackage)
    (a : String) : ∀ (m : List (AuthKey × String)) (k : AuthKey),
    k ∉ ps.map pkgKey → lookupK (insertAll m ps a) k = lookupK m k := by
  induction ps with
  | nil => intro m k _; rfl
  | cons p rest ih =>
    intro m k hk
    rw [List.map_cons, List.mem_cons] at hk
    push_neg at hk
    have step : insertAll m (p :: rest) a =
        insertAll (insertAuth m (pkgKey p) a) rest a := rfl
    rw [step, ih _ k hk.2, lookupK_insertAuth_ne _ _ _ _ hk.1]

theorem insertAll_lookup_mem (ps : List PreparedPublishPackage)
    (a : String) : ∀ (m : List (AuthKey × String)) (k : AuthKey),
    k ∈ ps.map pkgKey → lookupK (insertAll m ps a) k = some a := by
  induction ps with
  | nil => intro m k hk; simp at hk
  | cons p rest ih =>
    intro m k hk
    have step : insertAll m (p :: rest) a =
        insertAll (insertAuth m (pkgKey p) a) rest a := rfl
    by_cases hmem : k ∈ rest.map pkgKey
    · rw [step, ih _ k hmem]
    · rw [List.map_cons, List.mem_cons] at hk
      rcases hk with h1 | h2
      · subst h1
        rw [step, insertAll_lookup_not_mem rest a _ _ hmem,
          lookupK_insertAuth_self]
      · exact absurd h2 hmem

theorem insertAll_mem_keys (ps : List PreparedPublishPackage) (a : String) :
    ∀ (m : List (AuthKey × String)) (k : AuthKey),
    k ∈ keysOf (insertAll m ps a) ↔ k ∈ keysOf m ∨ k ∈ ps.map pkgKey := by
  induction ps with
  | nil => intro m k; simp [insertAll]
  | cons p rest ih =>
    intro m k
    have step : insertAll m (p :: rest) a =
        insertAll (insertAuth m (pkgKey p) a) rest a := rfl
    rw [step, ih, mem_keys_insertAuth, List.map_cons, List.mem_cons]
    tauto

theorem insertAll_nodup (ps : List PreparedPublishPackage) (a : String) :
    ∀ (m : List (AuthKey × String)), (keysOf m).Nodup →
    (keysOf (insertAll m ps a)).Nodup := by
  induction ps with
  | nil => intro m h; exact h
  | cons p rest ih =>
    intro m h
    exact ih _ (nodup_keys_insertAuth m (pkgKey p) a h)

theorem insertAll_length (ps : List PreparedPublishPackage) (a : String) :
    ∀ (m : List (AuthKey × String)), (ps.map pkgKey).Nodup →
    (∀ p ∈ ps, pkgKey p ∉ keysOf m) →
    (insertAll m ps a).length = m.length + ps.length := by
  induction ps with
  | nil => intro m _ _; rfl
  | cons p rest ih =>
    intro m hnodup hfresh
    rw [List.map_cons, List.nodup_cons] at hnodup
    have step : insertAll m (p :: rest) a =
        insertAll (insertAuth m (pkgKey p) a) rest a := rfl
    have hlen : (insertAuth m (pkgKey p) a).length = m.length + 1 := by
      rw [length_insertAuth, if_neg (hfresh p (by simp))]
    have hfresh2 : ∀ q ∈ rest, pkgKey q ∉
        keysOf (insertAuth m (pkgKey p) a) := by
      intro q hq hmem
      rcases (mem_keys_insertAuth m (pkgKey p) a (pkgKey q)).mp hmem
        with h1 | h2
      · exact hnodup.1 (h1 ▸ List.mem_map_of_mem pkgKey hq)
      · exact hfresh q (by simp [hq]) h2
    rw [step, ih _ hnodup.2 hfresh2, hlen]
    simp [Nat.add_assoc, Nat.add_comm 1 rest.length]

/-- Chunk a list into consecutive blocks of `n` elements, by fuel
(`slice::chunks(n)`). -/
def chunksOfAux {α : Type} (n : Nat) : Nat → List α → List (List α)
  | _, [] => []
  | 0, _ :: _ => []
  | fuel + 1, x :: xs => ((x :: xs).take n) :: chunksOfAux n fuel ((x :: xs).drop n)

/-- `slice::chunks(n)`: consecutive chunks of at most `n` elements, all but
the last of exactly `n`. -/
def chunksOf {α : Type} (n : Nat) (xs : List α) : List (List α) :=
  chunksOfAux n xs.length xs

theorem chunksOfAux_flatten {α : Type} (n : Nat) (hn : 0 < n) :
    ∀ (fuel : Nat) (xs : List α), xs.length ≤ fuel →
    (chunksOfAux n fuel xs).flatten = xs := by
  intro fuel
  induction fuel with
  | zero =>
    intro xs h
    have : xs = [] := List.eq_nil_of_length_eq_zero (Nat.le_zero.mp h)
    subst this
    rfl
  | succ g ih =>
    intro xs h
    cases xs with
    | nil => rfl
    | cons x rest =>
      simp only [chunksOfAux, List.flatten_cons]
      rw [ih]
      · exact List.take_append_drop n (x :: rest)
      · rw [List.length_drop]
        simp only [List.length_cons] at h ⊢
        omega

theorem chunksOf_flatten {α : Type} (n : Nat) (hn : 0 < n) (xs : List α) :
    (chunksOf n xs).flatten = xs :=
  chunksOfAux_flatten n hn xs.length xs (le_refl _)

theorem chunksOfAux_shape {α : Type} (n : Nat) (hn : 0 < n) :
    ∀ (fuel : Nat) (xs : List α), xs.length ≤ fuel →
    ∀ i c, (chunksOfAux n fuel xs)[i]? = some c →
      (c ≠ [] ∧ c.length ≤ n ∧
        (i + 1 < (chunksOfAux n fuel xs).length → c.length = n)) := by
  intro fuel
  induction fuel with
  | zero =>
    intro xs h i c hc
    have : xs = [] := List.eq_nil_of_length_eq_zero (Nat.le_zero.mp h)
    subst this
    simp [chunksOfAux] at hc
  | succ g ih =>
    intro xs h i c hc
    cases xs with
    | nil => simp [chunksOfAux] at hc
    | cons x rest =>
      have hdroplen : ((x :: rest).drop n).length ≤ g := by
        rw [List.length_drop]
        simp only [List.length_cons] at h ⊢
        omega
      cases i with
      | zero =>
        simp only [chunksOfAux, List.getElem?_cons_zero,
          Option.some.injEq] at hc
        subst hc
        refine ⟨?_, ?_, ?_⟩
        · cases n with
          | zero => exact absurd hn (Nat.lt_irrefl 0)
          | succ nn => simp [List.take]
        · rw [List.length_take]
          exact Nat.min_le_left _ _
        · intro hlt
          simp only [chunksOfAux, List.length_cons] at hlt
          have hne : chunksOfAux n g ((x :: rest).drop n) ≠ [] := by
            intro hempty
            rw [hempty] at hlt
            simp at hlt
          have hdrop : (x :: rest).drop n ≠ [] := by
            intro hd
            rw [hd] at hne
            exact hne (by cases g <;> rfl)
          have hnlt : n < (x :: rest).length := by
            by_contra hge
            push_neg at hge
            exact hdrop (List.drop_eq_nil_of_le hge)
          simp only [List.length_cons] at hnlt
          rw [List.length_take]
          simp only [List.length_cons]
          exact Nat.min_eq_left (by omega)
      | succ j =>
        simp only [chunksOfAux, List.getElem?_cons_succ] at hc
        obtain ⟨h1, h2, h3⟩ := ih ((x :: rest).drop n) hdroplen j c hc
        refine ⟨h1, h2, ?_⟩
        intro hlt
        apply h3
        simp only [chunksOfAux, List.length_cons] at hlt
        omega

theorem chunksOf_shape {α : Type} (n : Nat) (hn : 0 < n) (xs : List α)
    (i : Nat) (c : List α) (hc : (chunksOf n xs)[i]? = some c) :
    c ≠ [] ∧ c.length ≤ n ∧
      (i + 1 < (chunksOf n xs).length → c.length = n) :=
  chunksOfAux_shape n hn xs.length xs (le_refl _) i c hc

/-- Response of `POST /authorizations`
(`api::CreateAuthorizationResponse`). -/
structure CreateAuthorizationResponse where
  verification_url : String
  code : String
  exchange_token : String
  poll_interval : Nat

/-- The `user` object of an exchange response. -/
structure ExchangeUser where
  name : String

/-- Response of `POST /authorizations/exchange`
(`api::ExchangeAuthorizationResponse`). -/
structure ExchangeAuthorizationResponse where
  token : String
  user : ExchangeUser

/-- OIDC configuration (`auth::OidcConfig`). -/
structure OidcConfig where
  url : String
  token : String

/-- The authentication method (`auth::AuthMethod`). -/
inductive AuthMethod where
  | interactive
  | token (t : String)
  | oidc (cfg : OidcConfig)

/-- External responses consumed by `get_auth_headers`: the device-grant
creation response, the successive exchange responses, and the OIDC token
response per chunk index. -/
structure AuthInputs where
  createResponse : Except ApiError CreateAuthorizationResponse
  exchangeResponses : List (Except ApiError ExchangeAuthorizationResponse)
  oidcResponses : Nat → Except String String

/-- Result of `get_auth_headers`: the authorizations map and the number of
network requests made, an error, divergence (the modelled exchange response
stream ran out while pending), or the `packages[0]` index panic. -/
inductive AuthResult where
  | ok (authorizations : List (AuthKey × String)) (requests : Nat)
  | err (msg : String)
  | diverged
  | crashed

/-- The exchange polling loop of the interactive flow: sleep the poll
interval, `POST /authorizations/exchange`, retry on `authorizationPending`,
stop on success, fail on any other error.  `reqs` counts requests so far. -/
def exchangeLoop (packages : List PreparedPublishPackage) :
    Nat → List (Except ApiError ExchangeAuthorizationResponse) → AuthResult
  | _, [] => .diverged
  | reqs, .ok r :: _ =>
    .ok (insertAll [] packages ("Bearer " ++ r.token)) (reqs + 1)
  | reqs, .error e :: rest =>
    if e.code == "authorizationPending" then
      exchangeLoop packages (reqs + 1) rest
    else
      .err ("Failed to exchange authorization: " ++ e.message)

/-- The OIDC chunk loop of `get_auth_headers`: one GET per chunk of 16, each
chunk's packages mapped to `githuboidc <value>` from that chunk's response.
`i` is the chunk index, which also counts the requests made so far. -/
def oidcGo (resp : Nat → Except String String) :
    Nat → List (List PreparedPublishPackage) → List (AuthKey × String) →
    AuthResult
  | i, [], m => .ok m i
  | i, c :: cs, m =>
    match resp i with
    | .error e => .err ("Failed to get OIDC token: " ++ e)
    | .ok value =>
      oidcGo resp (i + 1) cs (insertAll m c ("githuboidc " ++ value))

/-- Embedding of `get_auth_headers`: one of three flows, each producing a
`(scope, name, version) → Authorization` map. -/
def get_auth_headers (packages : List PreparedPublishPackage)
    (auth_method : AuthMethod) (inputs : AuthInputs) : AuthResult :=
  match auth_method with
  | .interactive =>
    match inputs.createResponse with
    | .error e =>
      .err ("Failed to create interactive authorization: " ++ e.message)
    | .ok _auth =>
      if packages.length > 1 then
        exchangeLoop packages 1 inputs.exchangeResponses
      else
        match packages with
        | [] => .crashed
        | _ :: _ => exchangeLoop packages 1 inputs.exchangeResponses
  | .token t => .ok (insertAll [] packages ("Bearer " ++ t)) 0
  | .oidc _cfg => oidcGo inputs.oidcResponses 0 (chunksOf 16 packages) []

theorem oidcGo_requests (resp : Nat → Except String String) :
    ∀ (cs : List (List PreparedPublishPackage)) (i : Nat)
      (m0 m : List (AuthKey × String)) (n : Nat),
    oidcGo resp i cs m0 = .ok m n → n = i + cs.length := by
  intro cs
  induction cs with
  | nil =>
    intro i m0 m n h
    obtain ⟨h1, h2⟩ : m0 = m ∧ i = n := by simpa [oidcGo] using h
    simp [h2.symm]
  | cons c rest ih =>
    intro i m0 m n h
    rcases hr : resp i with e | v
    · simp [oidcGo, hr] at h
    · simp only [oidcGo, hr] at h
      have := ih (i + 1) _ m n h
      rw [this, List.length_cons]
      omega

theorem oidcGo_keys (resp : Nat → Except String String) :
    ∀ (cs : List (List PreparedPublishPackage)) (i : Nat)
      (m0 m : List (AuthKey × String)) (n : Nat),
    oidcGo resp i cs m0 = .ok m n →
    ∀ k, k ∈ keysOf m ↔ k ∈ keysOf m0 ∨ k ∈ cs.flatten.map pkgKey := by
  intro cs
  induction cs with
  | nil =>
    intro i m0 m n h k
    obtain ⟨h1, _⟩ : m0 = m ∧ i = n := by simpa [oidcGo] using h
    subst h1
    simp
  | cons c rest ih =>
    intro i m0 m n h k
    rcases hr : resp i with e | v
    · simp [oidcGo, hr] at h
    · simp only [oidcGo, hr] at h
      rw [ih (i + 1) _ m n h k, insertAll_mem_keys, List.flatten_cons,
        List.map_append, List.mem_append]
      tauto

theorem oidcGo_nodup (resp : Nat → Except String String) :
    ∀ (cs : List (List PreparedPublishPackage)) (i : Nat)
      (m0 m : List (AuthKey × String)) (n : Nat),
    (keysOf m0).Nodup → oidcGo resp i cs m0 = .ok m n →
    (keysOf m).Nodup := by
  intro cs
  induction cs with
  | nil =>
    intro i m0 m n hnd h
    obtain ⟨h1, _⟩ : m0 = m ∧ i = n := by simpa [oidcGo] using h
    exact h1 ▸ hnd
  | cons c rest ih =>
    intro i m0 m n hnd h
    rcases hr : resp i with e | v
    · simp [oidcGo, hr] at h
    · simp only [oidcGo, hr] at h
      exact ih (i + 1) _ m n (insertAll_nodup c _ m0 hnd) h

theorem oidcGo_preserved (resp : Nat → Except String String) :
    ∀ (cs : List (List PreparedPublishPackage)) (i : Nat)
      (m0 m : List (AuthKey × String)) (n : Nat) (k : AuthKey),
    oidcGo resp i cs m0 = .ok m n → k ∉ cs.flatten.map pkgKey →
    lookupK m k = lookupK m0 k := by
  intro cs
  induction cs with
  | nil =>
    intro i m0 m n k h _
    obtain ⟨h1, _⟩ : m0 = m ∧ i = n := by simpa [oidcGo] using h
    rw [h1]
  | cons c rest ih =>
    intro i m0 m n k h hk
    rw [List.flatten_cons, List.map_append, List.mem_append] at hk
    push_neg at hk
    rcases hr : resp i with e | v
    · simp [oidcGo, hr] at h
    · simp only [oidcGo, hr] at h
      rw [ih (i + 1) _ m n k h hk.2, insertAll_lookup_not_mem c _ m0 k hk.1]

theorem oidcGo_chunk_token (resp : Nat → Except String String) :
    ∀ (cs : List (List PreparedPublishPackage)) (i : Nat)
      (m0 m : List (AuthKey × String)) (n : Nat),
    oidcGo resp i cs m0 = .ok m n →
    ∀ j c p, cs[j]? = some c → p ∈ c →
      pkgKey p ∉ (cs.drop (j + 1)).flatten.map pkgKey →
      ∃ v, resp (i + j) = .ok v ∧
        lookupK m (pkgKey p) = some ("githuboidc " ++ v) := by
  intro cs
  induction cs with
  | nil =>
    intro i m0 m n h j c p hc
    simp at hc
  | cons c0 rest ih =>
    intro i m0 m n h j c p hc hp hlater
    rcases hr : resp i with e | v
    · simp [oidcGo, hr] at h
    · simp only [oidcGo, hr] at h
      cases j with
      | zero =>
        simp only [List.getElem?_cons_zero, Option.some.injEq] at hc
        subst hc
        refine ⟨v, by simpa using hr, ?_⟩
        rw [List.drop_succ_cons, List.drop_zero] at hlater
        rw [oidcGo_preserved resp rest (i + 1) _ m n (pkgKey p) h hlater]
        exact insertAll_lookup_mem c0 _ m0 _ (List.mem_map_of_mem pkgKey hp)
      | succ j2 =>
        simp only [List.getElem?_cons_succ] at hc
        rw [List.drop_succ_cons] at hlater
        obtain ⟨v2, hv2, hl⟩ := ih (i + 1) _ m n h j2 c p hc hp hlater
        refine ⟨v2, ?_, hl⟩
        rw [show i + (j2 + 1) = i + 1 + j2 from by omega]
        exact hv2

theorem oidcGo_length (resp : Nat → Except String String) :
    ∀ (cs : List (List PreparedPublishPackage)) (i : Nat)
      (m0 m : List (AuthKey × String)) (n : Nat),
    (cs.flatten.map pkgKey).Nodup →
    (∀ p ∈ cs.flatten, pkgKey p ∉ keysOf m0) →
    oidcGo resp i cs m0 = .ok m n →
    m.length = m0.length + cs.flatten.length := by
  intro cs
  induction cs with
  | nil =>
    intro i m0 m n _ _ h
    obtain ⟨h1, _⟩ : m0 = m ∧ i = n := by simpa [oidcGo] using h
    simp [h1]
  | cons c rest ih =>
    intro i m0 m n hnd hfresh h
    rw [List.flatten_cons, List.map_append, List.nodup_append] at hnd
    rcases hr : resp i with e | v
    · simp [oidcGo, hr] at h
    · simp only [oidcGo, hr] at h
      have hlen1 : (insertAll m0 c ("githuboidc " ++ v)).length =
          m0.length + c.length := by
        apply insertAll_length c _ m0 hnd.1
        intro p hp
        exact hfresh p (by simp [hp])
      have hfresh2 : ∀ p ∈ rest.flatten,
          pkgKey p ∉ keysOf (insertAll m0 c ("githuboidc " ++ v)) := by
        intro p hp hmem
        rcases (insertAll_mem_keys c _ m0 (pkgKey p)).mp hmem with h1 | h2
        · exact hfresh p (by simp [hp]) h1
        · exact hnd.2.2 h2 (List.mem_map_of_mem pkgKey hp)
      rw [ih (i + 1) _ m n hnd.2.1 hfresh2 h, hlen1, List.flatten_cons,
        List.length_append]
      omega

theorem exchangeLoop_pending_step (packages : List PreparedPublishPackage)
    (reqs : Nat) (e : ApiError)
    (rest : List (Except ApiError ExchangeAuthorizationResponse))
    (hp : e.code = "authorizationPending") :
    exchangeLoop packages reqs (.error e :: rest) =
      exchangeLoop packages (reqs + 1) rest := by
  simp [exchangeLoop, hp]

theorem exchangeLoop_ok_spec (packages : List PreparedPublishPackage) :
    ∀ (rs : List (Except ApiError ExchangeAuthorizationResponse))
      (reqs : Nat) (m : List (AuthKey × String)) (n : Nat),
    exchangeLoop packages reqs rs = .ok m n →
      ∃ (j : Nat) (r : ExchangeAuthorizationResponse),
        rs[j]? = some (.ok r) ∧
        (∀ i, i < j → ∃ (e : ApiError), rs[i]? = some (.error e) ∧
          e.code = "authorizationPending") ∧
        m = insertAll [] packages ("Bearer " ++ r.token) := by
  intro rs
  induction rs with
  | nil =>
    intro reqs m n h
    simp [exchangeLoop] at h
  | cons x rest ih =>
    intro reqs m n h
    cases x with
    | ok r =>
      simp only [exchangeLoop] at h
      obtain ⟨h1, h2⟩ :
          insertAll [] packages ("Bearer " ++ r.token) = m ∧
            reqs + 1 = n := by simpa using h
      exact ⟨0, r, by simp, fun i hi => absurd hi (Nat.not_lt_zero i), h1.symm⟩
    | error e =>
      by_cases hp : (e.code == "authorizationPending") = true
      · rw [exchangeLoop_pending_step packages reqs e rest
          (by simpa using hp)] at h
        obtain ⟨j, r, hj, hpre, hm⟩ := ih (reqs + 1) m n h
        refine ⟨j + 1, r, by simpa using hj, ?_, hm⟩
        intro i hi
        cases i with
        | zero => exact ⟨e, by simp, by simpa using hp⟩
        | succ i2 =>
          obtain ⟨e2, he2, hc2⟩ := hpre i2 (by omega)
          exact ⟨e2, by simpa using he2, hc2⟩
      · simp [exchangeLoop, hp] at h

theorem exchangeLoop_err_spec (packages : List PreparedPublishPackage) :
    ∀ (rs : List (Except ApiError ExchangeAuthorizationResponse))
      (reqs : Nat) (msg : String),
    exchangeLoop packages reqs rs = .err msg →
      ∃ (j : Nat) (e : ApiError), rs[j]? = some (.error e) ∧
        ¬ e.code = "authorizationPending" ∧
        (∀ i, i < j → ∃ (e2 : ApiError), rs[i]? = some (.error e2) ∧
          e2.code = "authorizationPending") ∧
        msg = "Failed to exchange authorization: " ++ e.message := by
  intro rs
  induction rs with
  | nil =>
    intro reqs msg h
    simp [exchangeLoop] at h
  | cons x rest ih =>
    intro reqs msg h
    cases x with
    | ok r => simp [exchangeLoop] at h
    | error e =>
      by_cases hp : (e.code == "authorizationPending") = true
      · rw [exchangeLoop_pending_step packages reqs e rest
          (by simpa using hp)] at h
        obtain ⟨j, e2, hj, hcode, hpre, hmsg⟩ := ih (reqs + 1) msg h
        refine ⟨j + 1, e2, by simpa using hj, hcode, ?_, hmsg⟩
        intro i hi
        cases i with
        | zero => exact ⟨e, by simp, by simpa using hp⟩
        | succ i2 =>
          obtain ⟨e3, he3, hc3⟩ := hpre i2 (by omega)
          exact ⟨e3, by simpa using he3, hc3⟩
      · simp only [exchangeLoop, if_neg hp] at h
        obtain hmsg : "Failed to exchange authorization: " ++ e.message =
            msg := by simpa using h
        exact ⟨0, e, by simp, by simpa using hp,
          fun i hi => absurd hi (Nat.not_lt_zero i), hmsg.symm⟩

theorem exchangeLoop_diverged_iff (packages : List PreparedPublishPackage) :
    ∀ (rs : List (Except ApiError ExchangeAuthorizationResponse))
      (reqs : Nat),
    exchangeLoop packages reqs rs = .diverged ↔
      ∀ x ∈ rs, ∃ (e : ApiError), x = .error e ∧
        e.code = "authorizationPending" := by
  intro rs
  induction rs with
  | nil =>
    intro reqs
    simp [exchangeLoop]
  | cons x rest ih =>
    intro reqs
    cases x with
    | ok r => simp [exchangeLoop]
    | error e =>
      by_cases hp : (e.code == "authorizationPending") = true
      · have hp2 : e.code = "authorizationPending" := by simpa using hp
        rw [exchangeLoop_pending_step packages reqs e rest hp2,
          ih (reqs + 1), List.forall_mem_cons]
        simp [hp2]
      · have hp2 : ¬ e.code = "authorizationPending" := by simpa using hp
        simp [exchangeLoop, hp, List.forall_mem_cons, hp2]

/-- Claim C7: in the interactive flow, the exchange loop retries exactly on
`authorizationPending`, maps every package to `Bearer <token>` on success,
fails the whole authorization on any other error code, and runs forever
exactly when every response is an `authorizationPending` error. -/
theorem claim_C7_exchange_polling (packages : List PreparedPublishPackage)
    (inputs : AuthInputs) (c : CreateAuthorizationResponse)
    (hcr : inputs.createResponse = .ok c) (hne : packages ≠ []) :
    get_auth_headers packages .interactive inputs =
      exchangeLoop packages 1 inputs.exchangeResponses ∧
    (∀ reqs e rest, e.code = "authorizationPending" →
      exchangeLoop packages reqs (.error e :: rest) =
        exchangeLoop packages (reqs + 1) rest) ∧
    (∀ m n, exchangeLoop packages 1 inputs.exchangeResponses = .ok m n →
      ∃ (j : Nat) (r : ExchangeAuthorizationResponse),
        inputs.exchangeResponses[j]? = some (.ok r) ∧
        (∀ i, i < j → ∃ (e : ApiError),
          inputs.exchangeResponses[i]? = some (.error e) ∧
          e.code = "authorizationPending") ∧
        ∀ p ∈ packages, lookupK m (pkgKey p) =
          some ("Bearer " ++ r.token)) ∧
    (∀ msg, exchangeLoop packages 1 inputs.exchangeResponses = .err msg →
      ∃ (j : Nat) (e : ApiError),
        inputs.exchangeResponses[j]? = some (.error e) ∧
        ¬ e.code = "authorizationPending" ∧
        (∀ i, i < j → ∃ (e2 : ApiError), inputs.exchangeResponses[i]? =
          some (.error e2) ∧ e2.code = "authorizationPending") ∧
        msg = "Failed to exchange authorization: " ++ e.message) ∧
    (exchangeLoop packages 1 inputs.exchangeResponses = .diverged ↔
      ∀ x ∈ inputs.exchangeResponses, ∃ (e : ApiError), x = .error e ∧
        e.code = "authorizationPending") := by
  refine ⟨?_, ?_, ?_, exchangeLoop_err_spec packages _ 1,
    exchangeLoop_diverged_iff packages _ 1⟩
  · cases packages with
    | nil => exact absurd rfl hne
    | cons p rest =>
      by_cases hlen : (p :: rest).length > 1
      · simp [get_auth_headers, hcr, hlen]
      · simp [get_auth_headers, hcr, hlen]
  · intro reqs e rest hp
    exact exchangeLoop_pending_step packages reqs e rest hp
  · intro m n h
    obtain ⟨j, r, hj, hpre, hm⟩ := exchangeLoop_ok_spec packages _ 1 m n h
    refine ⟨j, r, hj, hpre, ?_⟩
    intro p hp
    rw [hm]
    exact insertAll_lookup_mem packages _ [] _ (List.mem_map_of_mem pkgKey hp)

/-- An `authorizationPending` server error. -/
def pendingErr : ApiError :=
  { code := "authorizationPending", message := "pending", dataTask := none }

/-- A successful exchange response. -/
def exchangeOkResp : ExchangeAuthorizationResponse :=
  { token := "tok123", user := { name := "alice" } }

/-- A device-grant creation response. -/
def sampleCreateResp : CreateAuthorizationResponse :=
  { verification_url := "https://jsr.io/auth", code := "ABCD"
    exchange_token := "ex", poll_interval := 2 }

/-- Interactive-flow inputs: one pending error, then success. -/
def interactiveInputs : AuthInputs :=
  { createResponse := .ok sampleCreateResp
    exchangeResponses := [.error pendingErr, .ok exchangeOkResp]
    oidcResponses := fun _ => .error "unused" }

/-- Witness for claim C7 on a concrete interactive run. -/
theorem claim_C7_witness :
    (interactiveInputs.createResponse = .ok sampleCreateResp ∧
      ([mismatchPackage] : List PreparedPublishPackage) ≠ []) ∧
    get_auth_headers [mismatchPackage] .interactive interactiveInputs =
      exchangeLoop [mismatchPackage] 1 interactiveInputs.exchangeResponses :=
  ⟨⟨rfl, by simp⟩, (claim_C7_exchange_polling [mismatchPackage]
    interactiveInputs sampleCreateResp rfl (by simp)).1⟩

theorem insertAll_facts (packages : List PreparedPublishPackage)
    (a : String) (m : List (AuthKey × String))
    (hm : m = insertAll [] packages a) :
    (keysOf m).Nodup ∧
    (∀ k, k ∈ keysOf m ↔ k ∈ packages.map pkgKey) ∧
    ((packages.map pkgKey).Nodup → m.length = packages.length) ∧
    (∀ p ∈ packages, lookupK m (pkgKey p) = some a) := by
  subst hm
  refine ⟨insertAll_nodup packages a [] (by simp [keysOf]), ?_, ?_, ?_⟩
  · intro k
    rw [insertAll_mem_keys]
    simp [keysOf]
  · intro hnodup
    rw [insertAll_length packages a [] hnodup (by simp [keysOf])]
    simp
  · intro p hp
    exact insertAll_lookup_mem packages a [] _ (List.mem_map_of_mem pkgKey hp)

/-- Claim C5: on success `get_auth_headers` returns a map whose keys are
exactly the `(scope, name, version)` triples of the input packages, with no
duplicate keys (so with distinct package keys the orchestrator's
`assert_eq!(packages.len(), authorizations.len())` holds); the static-token
flow maps every package to the same `Bearer <token>` and makes no network
request. -/
theorem claim_C5_auth_covers_packages (packages : List PreparedPublishPackage)
    (auth_method : AuthMethod) (inputs : AuthInputs)
    (m : List (AuthKey × String)) (n : Nat) (hne : packages ≠ [])
    (h : get_auth_headers packages auth_method inputs = .ok m n) :
    (keysOf m).Nodup ∧
    (∀ k, k ∈ keysOf m ↔ k ∈ packages.map pkgKey) ∧
    ((packages.map pkgKey).Nodup → m.length = packages.length) ∧
    (∀ t, auth_method = .token t →
      (∀ p ∈ packages, lookupK m (pkgKey p) = some ("Bearer " ++ t)) ∧
        n = 0) := by
  cases auth_method with
  | token t =>
    obtain ⟨h1, h2⟩ :
        insertAll [] packages ("Bearer " ++ t) = m ∧ 0 = n := by
      simpa [get_auth_headers] using h
    obtain ⟨f1, f2, f3, f4⟩ := insertAll_facts packages ("Bearer " ++ t) m
      h1.symm
    refine ⟨f1, f2, f3, ?_⟩
    intro t2 ht
    obtain rfl : t = t2 := by cases ht; rfl
    exact ⟨f4, h2.symm⟩
  | interactive =>
    rcases hcr : inputs.createResponse with e | c
    · simp [get_auth_headers, hcr] at h
    · have hloop : exchangeLoop packages 1 inputs.exchangeResponses =
          .ok m n := by
        cases packages with
        | nil => exact absurd rfl hne
        | cons p rest =>
          by_cases hlen : (p :: rest).length > 1
          · simpa [get_auth_headers, hcr, hlen] using h
          · simpa [get_auth_headers, hcr, hlen] using h
      obtain ⟨j, r, hj, hpre, hm⟩ :=
        exchangeLoop_ok_spec packages _ 1 m n hloop
      obtain ⟨f1, f2, f3, f4⟩ :=
        insertAll_facts packages ("Bearer " ++ r.token) m hm
      exact ⟨f1, f2, f3, fun t ht => AuthMethod.noConfusion ht⟩
  | oidc cfg =>
    have h2 : oidcGo inputs.oidcResponses 0 (chunksOf 16 packages) [] =
        .ok m n := by
      simpa [get_auth_headers] using h
    have hflat : (chunksOf 16 packages).flatten = packages :=
      chunksOf_flatten 16 (by omega) packages
    have hkeys : ∀ k, k ∈ keysOf m ↔ k ∈ packages.map pkgKey := by
      intro k
      have hk := oidcGo_keys inputs.oidcResponses (chunksOf 16 packages)
        0 [] m n h2 k
      rw [hflat] at hk
      simpa [keysOf] using hk
    have hnd : (keysOf m).Nodup :=
      oidcGo_nodup inputs.oidcResponses (chunksOf 16 packages) 0 [] m n
        (by simp [keysOf]) h2
    have hlen : (packages.map pkgKey).Nodup →
        m.length = packages.length := by
      intro hnd2
      have hl := oidcGo_length inputs.oidcResponses (chunksOf 16 packages)
        0 [] m n (by rw [hflat]; exact hnd2)
        (by rw [hflat]; intro p hp; simp [keysOf]) h2
      rw [hflat] at hl
      simpa using hl
    exact ⟨hnd, hkeys, hlen, fun t ht => AuthMethod.noConfusion ht⟩

/-- A second concrete package, distinct from `mismatchPackage`. -/
def secondPackage : PreparedPublishPackage :=
  { mismatchPackage with scope := "other", package := "lib" }

/-- Auth inputs that are never consulted by the static-token flow. -/
def tokenAuthInputs : AuthInputs :=
  { createResponse := .error { code := "x", message := "x", dataTask := none }
    exchangeResponses := []
    oidcResponses := fun _ => .error "unused" }

/-- Witness for claim C5 on the static-token flow with two packages. -/
theorem claim_C5_witness :
    (([mismatchPackage, secondPackage] : List PreparedPublishPackage) ≠ [] ∧
      get_auth_headers [mismatchPackage, secondPackage] (.token "tok")
        tokenAuthInputs =
        .ok (insertAll [] [mismatchPackage, secondPackage]
          ("Bearer " ++ "tok")) 0) ∧
    (∀ p ∈ ([mismatchPackage, secondPackage] :
        List PreparedPublishPackage),
      lookupK (insertAll [] [mismatchPackage, secondPackage]
        ("Bearer " ++ "tok")) (pkgKey p) = some ("Bearer " ++ "tok")) :=
  ⟨⟨by simp, rfl⟩,
    ((claim_C5_auth_covers_packages [mismatchPackage, secondPackage]
      (.token "tok") tokenAuthInputs _ 0 (by simp) rfl).2.2.2 "tok"
        rfl).1⟩

theorem not_mem_later_chunks
    (cs : List (List PreparedPublishPackage)) :
    ∀ (j : Nat) (c : List PreparedPublishPackage)
      (p : PreparedPublishPackage),
    (cs.flatten.map pkgKey).Nodup → cs[j]? = some c → p ∈ c →
    pkgKey p ∉ (cs.drop (j + 1)).flatten.map pkgKey := by
  induction cs with
  | nil =>
    intro j c p _ hc
    simp at hc
  | cons c0 rest ih =>
    intro j c p hnd hc hp
    rw [List.flatten_cons, List.map_append, List.nodup_append] at hnd
    cases j with
    | zero =>
      simp only [List.getElem?_cons_zero, Option.some.injEq] at hc
      subst hc
      rw [List.drop_succ_cons, List.drop_zero]
      exact hnd.2.2 (List.mem_map_of_mem pkgKey hp)
    | succ j2 =>
      simp only [List.getElem?_cons_succ] at hc
      rw [List.drop_succ_cons]
      exact ih j2 c p hnd.2.1 hc hp

/-- Claim C4: the OIDC flow partitions the packages into consecutive chunks
of 16 (non-empty, all but the last of exactly 16, concatenating back to the
input), performs one GET per chunk, and maps every package of chunk `i` to
`githuboidc <value>` built from the token of response `i`. -/
theorem claim_C4_oidc_chunking (packages : List PreparedPublishPackage)
    (inputs : AuthInputs) (cfg : OidcConfig)
    (m : List (AuthKey × String)) (n : Nat)
    (hnodup : (packages.map pkgKey).Nodup)
    (h : get_auth_headers packages (.oidc cfg) inputs = .ok m n) :
    n = (chunksOf 16 packages).length ∧
    (chunksOf 16 packages).flatten = packages ∧
    (∀ c ∈ chunksOf 16 packages, c ≠ [] ∧ c.length ≤ 16) ∧
    (∀ i c, (chunksOf 16 packages)[i]? = some c →
      ((i + 1 < (chunksOf 16 packages).length → c.length = 16) ∧
        ∀ p ∈ c, ∃ v, inputs.oidcResponses i = .ok v ∧
          lookupK m (pkgKey p) = some ("githuboidc " ++ v))) := by
  have h2 : oidcGo inputs.oidcResponses 0 (chunksOf 16 packages) [] =
      .ok m n := by
    simpa [get_auth_headers] using h
  have hflat : (chunksOf 16 packages).flatten = packages :=
    chunksOf_flatten 16 (by omega) packages
  refine ⟨?_, hflat, ?_, ?_⟩
  · have hr := oidcGo_requests inputs.oidcResponses (chunksOf 16 packages)
      0 [] m n h2
    simpa using hr
  · intro c hc
    obtain ⟨i, hi⟩ := List.getElem?_of_mem hc
    obtain ⟨s1, s2, _⟩ := chunksOf_shape 16 (by omega) packages i c hi
    exact ⟨s1, s2⟩
  · intro i c hc
    refine ⟨(chunksOf_shape 16 (by omega) packages i c hc).2.2, ?_⟩
    intro p hp
    have hlater := not_mem_later_chunks (chunksOf 16 packages) i c p
      (by rw [hflat]; exact hnodup) hc hp
    have ht := oidcGo_chunk_token inputs.oidcResponses
      (chunksOf 16 packages) 0 [] m n h2 i c p hc hp hlater
    simpa using ht

/-- The i-th of seventeen concrete packages with pairwise distinct keys. -/
def pkgN (i : Nat) : PreparedPublishPackage :=
  { scope := "s", package := "p" ++ toString i, version := "1.0.0"
    tarball := { bytes := [], hash := "h", files := [] }
    config := "deno.json", exports := [] }

/-- Seventeen packages: one more than the chunk size. -/
def seventeenPackages : List PreparedPublishPackage :=
  (List.range 17).map pkgN

/-- A concrete OIDC configuration. -/
def sampleOidcConfig : OidcConfig :=
  { url := "https://oidc.example/token?a=1", token := "ghtok" }

/-- OIDC-flow inputs: chunk `i` is answered with token `tok<i>`. -/
def oidcAuthInputs : AuthInputs :=
  { createResponse := .error { code := "x", message := "x", dataTask := none }
    exchangeResponses := []
    oidcResponses := fun i => .ok ("tok" ++ toString i) }

/-- The map produced by the OIDC flow on the seventeen packages. -/
def oidcResultMap : List (AuthKey × String) :=
  match get_auth_headers seventeenPackages (.oidc sampleOidcConfig)
      oidcAuthInputs with
  | .ok m _ => m
  | _ => []

/-- Witness for claim C4: seventeen packages make exactly two OIDC
requests, and the chunks concatenate back to the input list. -/
theorem claim_C4_witness :
    ((seventeenPackages.map pkgKey).Nodup ∧
      get_auth_headers seventeenPackages (.oidc sampleOidcConfig)
        oidcAuthInputs = .ok oidcResultMap 2) ∧
    2 = (chunksOf 16 seventeenPackages).length ∧
    (chunksOf 16 seventeenPackages).flatten = seventeenPackages := by
  have hnodup : (seventeenPackages.map pkgKey).Nodup := by decide
  have h : get_auth_headers seventeenPackages (.oidc sampleOidcConfig)
      oidcAuthInputs = .ok oidcResultMap 2 := rfl
  have main := claim_C4_oidc_chunking seventeenPackages oidcAuthInputs
    sampleOidcConfig oidcResultMap 2 hnodup h
  exact ⟨⟨hnodup, h⟩, main.1, main.2.1⟩

/-- External inputs of `ensure_scopes_and_packages_exist`: whether stdin is
a terminal, the HTTP statuses of the scope and package existence GETs, and
the successive statuses of the creation-poll GETs per package. -/
structure EnsureInputs where
  stdinIsTerminal : Bool
  scopeStatus : String → Nat
  packageStatus : String → String → Nat
  creationStatuses : String → String → List Nat

/-- Embedding of `check_if_scope_and_package_exist`: a creation URL when the
scope or the package GET returned 404, `none` otherwise. -/
def check_if_scope_and_package_exist (registry_manage_url scope
    package : String) (inputs : EnsureInputs) : Option String :=
  let needs_scope := inputs.scopeStatus scope == 404
  let needs_package := inputs.packageStatus scope package == 404
  if needs_scope || needs_package then
    some (registry_manage_url ++ "new?scope=" ++ scope ++ "&package=" ++
      package ++ "&from=cli")
  else
    none

/-- Number of 3-second creation polls until the package GET first returns
200; `none` when it never does (the loop would not terminate). -/
def creationPolls (statuses : List Nat) : Option Nat :=
  (statuses.findIdx? (fun s => s == 200)).map (· + 1)

/-- The interactive arm of `ensure_scopes_and_packages_exist`: for each
missing package, poll until created; returns the total number of polls. -/
def ensureInteractive (registry_manage_url : String)
    (inputs : EnsureInputs) : List PreparedPublishPackage → Option Nat
  | [] => some 0
  | p :: rest =>
    match check_if_scope_and_package_exist registry_manage_url p.scope
        p.package inputs with
    | none => ensureInteractive registry_manage_url inputs rest
    | some _url =>
      match creationPolls (inputs.creationStatuses p.scope p.package) with
      | none => none
      | some k =>
        match ensureInteractive registry_manage_url inputs rest with
        | none => none
        | some total => some (k + total)

/-- Embedding of `ensure_scopes_and_packages_exist`; the result pairs the
outcome with the number of creation polls performed, and `none` models an
endless creation-poll loop. -/
def ensure_scopes_and_packages_exist (_registry_api_url
    registry_manage_url : String) (packages : List PreparedPublishPackage)
    (inputs : EnsureInputs) : Option (Except String Unit × Nat) :=
  if inputs.stdinIsTerminal then
    match ensureInteractive registry_manage_url inputs packages with
    | none => none
    | some polls => some (.ok (), polls)
  else
    let missing_packages_lines := packages.filterMap (fun p =>
      (check_if_scope_and_package_exist registry_manage_url p.scope
        p.package inputs).map (fun url => " - " ++ url))
    if missing_packages_lines.isEmpty then
      some (.ok (), 0)
    else
      some (.error
        ("Following packages don't exist, follow the links and create them:\n"
          ++ String.intercalate "\n" missing_packages_lines), 0)

/-- Claim C8: with a non-terminal stdin, `ensure_scopes_and_packages_exist`
checks every package, performs no creation polling, succeeds exactly when
nothing is missing, and otherwise fails with one `new?scope=…&package=…
&from=cli` URL line per missing package. -/
theorem claim_C8_noninteractive_ensure (registry_api_url
    registry_manage_url : String) (packages : List PreparedPublishPackage)
    (inputs : EnsureInputs) (hterm : inputs.stdinIsTerminal = false) :
    (∃ r, ensure_scopes_and_packages_exist registry_api_url
      registry_manage_url packages inputs = some (r, 0)) ∧
    (ensure_scopes_and_packages_exist registry_api_url registry_manage_url
        packages inputs = some (.ok (), 0) ↔
      ∀ p ∈ packages, check_if_scope_and_package_exist registry_manage_url
        p.scope p.package inputs = none) ∧
    ((∃ p ∈ packages, check_if_scope_and_package_exist registry_manage_url
        p.scope p.package inputs ≠ none) →
      ensure_scopes_and_packages_exist registry_api_url registry_manage_url
          packages inputs = some (.error
        ("Following packages don't exist, follow the links and create them:\n"
          ++ String.intercalate "\n" (packages.filterMap (fun p =>
            (check_if_scope_and_package_exist registry_manage_url p.scope
              p.package inputs).map (fun url => " - " ++ url)))), 0)) ∧
    (∀ scope package, check_if_scope_and_package_exist registry_manage_url
        scope package inputs =
      if (inputs.scopeStatus scope == 404) ||
          (inputs.packageStatus scope package == 404) then
        some (registry_manage_url ++ "new?scope=" ++ scope ++ "&package=" ++
          package ++ "&from=cli")
      else none) := by
  have hempty : (packages.filterMap (fun p =>
      (check_if_scope_and_package_exist registry_manage_url p.scope
        p.package inputs).map (fun url => " - " ++ url))).isEmpty = true ↔
      ∀ p ∈ packages, check_if_scope_and_package_exist registry_manage_url
        p.scope p.package inputs = none := by
    rw [List.isEmpty_iff, List.filterMap_eq_nil_iff]
    constructor
    · intro h p hp
      have := h p hp
      rcases hc : check_if_scope_and_package_exist registry_manage_url
        p.scope p.package inputs with _ | u
      · rfl
      · rw [hc] at this
        exact Option.noConfusion this
    · intro h p hp
      rw [h p hp]
      rfl
  refine ⟨?_, ?_, ?_, fun scope package => rfl⟩
  · by_cases hmiss : (packages.filterMap (fun p =>
        (check_if_scope_and_package_exist registry_manage_url p.scope
          p.package inputs).map (fun url => " - " ++ url))).isEmpty = true
    · exact ⟨.ok (), by
        simp only [ensure_scopes_and_packages_exist, hterm]
        simp [hmiss]⟩
    · refine ⟨.error
        ("Following packages don't exist, follow the links and create them:\n"
          ++ String.intercalate "\n" (packages.filterMap (fun p =>
            (check_if_scope_and_package_exist registry_manage_url p.scope
              p.package inputs).map (fun url => " - " ++ url)))), ?_⟩
      simp only [ensure_scopes_and_packages_exist, hterm]
      simp [hmiss]
  · constructor
    · intro h
      rw [← hempty]
      by_contra hmiss
      simp only [ensure_scopes_and_packages_exist, hterm] at h
      rw [if_neg hmiss] at h
      simp at h
    · intro h
      simp only [ensure_scopes_and_packages_exist, hterm]
      rw [if_neg (by simp), if_pos (hempty.mpr h)]
  · intro hex
    have hmiss : ¬ (packages.filterMap (fun p =>
        (check_if_scope_and_package_exist registry_manage_url p.scope
          p.package inputs).map (fun url => " - " ++ url))).isEmpty = true := by
      intro hemp
      obtain ⟨p, hp, hne⟩ := hex
      exact hne (hempty.mp hemp p hp)
    simp only [ensure_scopes_and_packages_exist, hterm]
    simp [hmiss]

/-- Inputs where stdin is not a terminal and scope `test` is missing. -/
def nonTtyInputs : EnsureInputs :=
  { stdinIsTerminal := false
    scopeStatus := fun s => if s == "test" then 404 else 200
    packageStatus := fun _ _ => 200
    creationStatuses := fun _ _ => [] }

/-- Witness for claim C8 on a concrete non-terminal run. -/
theorem claim_C8_witness :
    nonTtyInputs.stdinIsTerminal = false ∧
    ∃ r, ensure_scopes_and_packages_exist "https://api.jsr.io/"
      "https://jsr.io/" [mismatchPackage] nonTtyInputs = some (r, 0) :=
  ⟨rfl, (claim_C8_noninteractive_ensure "https://api.jsr.io/"
    "https://jsr.io/" [mismatchPackage] nonTtyInputs rfl).1⟩

/-- A JSON value (`serde_json::Value`). -/
inductive JsonValue where
  | null
  | bool (b : Bool)
  | num (n : Int)
  | str (s : String)
  | arr (elems : List JsonValue)
  | obj (fields : List (String × JsonValue))

/-- `Value::as_str`: `some` exactly on JSON strings. -/
def JsonValue.asStr : JsonValue → Option String
  | .str s => some s
  | _ => none

/-- The export-object mapping of `prepare_publish`
(`exports.into_iter().map(|(k, v)| (k, v.as_str().unwrap().to_string()))`);
`none` models the `unwrap` panic on a non-string value. -/
def exportsFromObj : List (String × JsonValue) →
    Option (List (String × String))
  | [] => some []
  | (k, v) :: rest =>
    match v.asStr with
    | none => none
    | some s =>
      match exportsFromObj rest with
      | none => none
      | some l => some ((k, s) :: l)

/-- The `exports` match of `prepare_publish` over the configured JSON value
(present by the earlier `is_none` check). -/
def exportsMapOf : JsonValue → Option (List (String × String))
  | .obj fields => exportsFromObj fields
  | .str s => some [(".", s)]
  | _ => some []

/-- The suggested entrypoints probed when `exports` is missing. -/
def SUGGESTED_ENTRYPOINTS : List String :=
  ["mod.ts", "mod.js", "index.ts", "index.js"]

/-- First suggested entrypoint present in the package directory. -/
def suggestedEntrypoint (dirFiles : List String) : Option String :=
  SUGGESTED_ENTRYPOINTS.find? (fun e => dirFiles.contains e)

/-- The example configuration suggested in the missing-exports error. -/
def exportsContent (package_name version entrypoint : String) : String :=
  "\x7b\n  \"name\": \"" ++ package_name ++ "\",\n  \"version\": \"" ++
    version ++ "\",\n  \"exports\": \"" ++ entrypoint ++ "\"\n\x7d"

/-- `str::split_once` on character lists. -/
def splitOnceAux (c : Char) : List Char → Option (List Char × List Char)
  | [] => none
  | x :: xs =>
    if x = c then some ([], xs)
    else
      match splitOnceAux c xs with
      | none => none
      | some (a, b) => some (x :: a, b)

/-- `str::split_once` on strings. -/
def split_once (c : Char) (s : String) : Option (String × String) :=
  (splitOnceAux c s.toList).map (fun p => (p.1.asString, p.2.asString))

/-- `str::strip_prefix('@')`: the remainder after a leading `@`. -/
def strip_at (s : String) : Option String :=
  match s.toList with
  | c :: rest => if c = '@' then some rest.asString else none
  | [] => none

/-- Result of `prepare_publish`: a prepared package, a structured error, or
a panic (`crashed`). -/
inductive PrepareResult where
  | ok (package : PreparedPublishPackage)
  | err (msg : String)
  | crashed

/-- Embedding of the pure logic of `prepare_publish`: the version and
exports validations, the package-name parsing, and the construction of the
`PreparedPublishPackage`.  The filesystem probe for suggested entrypoints,
the publish-config parse and the tarball creation are external; their
results are inputs. -/
def prepare_publish (package_name : String) (specifier : String)
    (version : Option String) (exports : Option JsonValue)
    (dirFiles : List String) (config_file_name : String)
    (publishConfig : Except String Unit)
    (tarballResult : Except String PublishableTarball) : PrepareResult :=
  match version with
  | none => .err (specifier ++ " is missing 'version' field")
  | some version =>
    match exports with
    | none =>
      let entrypoint :=
        (suggestedEntrypoint dirFiles).getD "<path_to_entrypoint>"
      .err ("You did not specify an entrypoint to \"" ++ package_name ++
        "\" package in " ++ specifier ++
        ". Add `exports` mapping in the configuration file, eg:\n" ++
        exportsContent package_name version entrypoint)
    | some exportsJson =>
      match strip_at package_name with
      | none =>
        .err "Invalid package name, use '@<scope_name>/<package_name> format"
      | some name_no_at =>
        match split_once '/' name_no_at with
        | none =>
          .err "Invalid package name, use '@<scope_name>/<package_name> format"
        | some (scope, name_no_scope) =>
          match publishConfig with
          | .error e => .err e
          | .ok _ =>
            match tarballResult with
            | .error e => .err ("Failed to create a tarball: " ++ e)
            | .ok tarball =>
              match exportsMapOf exportsJson with
              | none => .crashed
              | some exportsMap =>
                .ok { scope := scope, package := name_no_scope
                      version := version, tarball := tarball
                      config := config_file_name, exports := exportsMap }

theorem exportsFromObj_eq_none_iff (fields : List (String × JsonValue)) :
    exportsFromObj fields = none ↔
      ∃ k v, (k, v) ∈ fields ∧ JsonValue.asStr v = none := by
  induction fields with
  | nil => simp [exportsFromObj]
  | cons kv rest ih =>
    obtain ⟨k, v⟩ := kv
    rcases hv : v.asStr with _ | s
    · simp only [exportsFromObj, hv]
      constructor
      · intro _
        exact ⟨k, v, by simp, hv⟩
      · intro _
        trivial
    · simp only [exportsFromObj, hv]
      rcases hrest : exportsFromObj rest with _ | l
      · simp only
        constructor
        · intro _
          obtain ⟨k2, v2, hmem, hnone⟩ := ih.mp hrest
          exact ⟨k2, v2, by simp [hmem], hnone⟩
        · intro _
          trivial
      · simp only
        constructor
        · intro h
          exact Option.noConfusion h
        · rintro ⟨k2, v2, hmem, hnone⟩
          rcases List.mem_cons.mp hmem with heq | hmem2
          · exfalso
            cases heq
            rw [hv] at hnone
            exact Option.noConfusion hnone
          · exfalso
            have h2 := ih.mpr ⟨k2, v2, hmem2, hnone⟩
            rw [hrest] at h2
            exact Option.noConfusion h2

/-- Claim C10: when the configuration's `exports` is a JSON object, a run of
`prepare_publish` that passes the version, name and tarball stages panics
(via the unchecked `unwrap`) exactly when some value of the object is not a
string; so the no-panic guarantee holds only under the all-strings
precondition. -/
theorem claim_C10_prepare_publish_unwrap_panic (package_name
    specifier version : String) (fields : List (String × JsonValue))
    (dirFiles : List String) (config_file_name : String)
    (tarball : PublishableTarball) (name_no_at scope name_no_scope : String)
    (hstrip : strip_at package_name = some name_no_at)
    (hsplit : split_once '/' name_no_at = some (scope, name_no_scope)) :
    prepare_publish package_name specifier (some version)
        (some (.obj fields)) dirFiles config_file_name (.ok ())
        (.ok tarball) = .crashed ↔
      ∃ k v, (k, v) ∈ fields ∧ JsonValue.asStr v = none := by
  simp only [prepare_publish, hstrip, hsplit, exportsMapOf]
  rcases hmap : exportsFromObj fields with _ | l
  · simp only
    constructor
    · intro _
      exact (exportsFromObj_eq_none_iff fields).mp hmap
    · intro _
      trivial
  · simp only
    constructor
    · intro h
      exact PrepareResult.noConfusion h
    · intro hex
      have h2 := (exportsFromObj_eq_none_iff fields).mpr hex
      rw [hmap] at h2
      exact Option.noConfusion h2

/-- Witness for claim C10: a numeric export value makes `prepare_publish`
panic. -/
theorem claim_C10_witness :
    (strip_at "@scope/pkg" = some "scope/pkg" ∧
      split_once '/' "scope/pkg" = some ("scope", "pkg")) ∧
    (prepare_publish "@scope/pkg" "file:///deno.json" (some "1.0.0")
        (some (.obj [(".", .num 1)])) [] "deno.json" (.ok ())
        (.ok mismatchPackage.tarball) = .crashed ↔
      ∃ k v, (k, v) ∈ [(".", JsonValue.num 1)] ∧
        JsonValue.asStr v = none) ∧
    prepare_publish "@scope/pkg" "file:///deno.json" (some "1.0.0")
        (some (.obj [(".", .num 1)])) [] "deno.json" (.ok ())
        (.ok mismatchPackage.tarball) = .crashed :=
  ⟨⟨by decide, by decide⟩,
    claim_C10_prepare_publish_unwrap_panic "@scope/pkg" "file:///deno.json"
      "1.0.0" [(".", .num 1)] [] "deno.json" mismatchPackage.tarball
      "scope/pkg" "scope" "pkg" (by decide) (by decide),
    (claim_C10_prepare_publish_unwrap_panic "@scope/pkg" "file:///deno.json"
      "1.0.0" [(".", .num 1)] [] "deno.json" mismatchPackage.tarball
      "scope/pkg" "scope" "pkg" (by decide) (by decide)).mpr
        ⟨".", JsonValue.num 1, by simp, rfl⟩⟩

end Registry
